import Mathlib

/-!
Shallow embedding of the pedestrian-detection pipeline core
(`src/utils.py`, `src/video_processor.py`).

Conventions of the embedding:
* Python `int` is `ℤ`; Python `float` values (confidences, accumulated
  sums, durations) are `ℚ`, since no claim concerns floating-point
  rounding.
* Python `/` can raise `ZeroDivisionError`; where a claim is about
  raising we embed the division with `pydiv` into `Except String`.
* The mutable `self.stats` dict of `VideoProcessor` is the `Stats`
  record threaded explicitly.
-/

/-- A detection tuple `(x1, y1, x2, y2, confidence, class_name)` as
produced by `PedestrianDetector.detect`. -/
structure Detection where
  x1 : ℤ
  y1 : ℤ
  x2 : ℤ
  y2 : ℤ
  conf : ℚ
  cls : String
deriving DecidableEq, Repr

/-- A bounding box `(x1, y1, x2, y2)`. -/
abbrev BBox := ℤ × ℤ × ℤ × ℤ

/-- The `(x1, y1, x2, y2)` part of a detection tuple
(`current_bbox = (x1, y1, x2, y2)` in `filter_detections_by_iou`). -/
def bboxOf (d : Detection) : BBox := (d.x1, d.y1, d.x2, d.y2)

/-- Well-formedness of a box per spec §3: `x1 ≤ x2` and `y1 ≤ y2`. -/
def wellFormedBox (b : BBox) : Prop :=
  b.1 ≤ b.2.2.1 ∧ b.2.1 ≤ b.2.2.2

instance (b : BBox) : Decidable (wellFormedBox b) := by
  unfold wellFormedBox; infer_instance

/-- Python float division, which raises `ZeroDivisionError` on a zero
denominator. -/
def pydiv (a b : ℚ) : Except String ℚ :=
  if b = 0 then .error "ZeroDivisionError" else .ok (a / b)

/-- Embedding of `calculate_iou` from `src/utils.py` (lines 127-170), with the
division rendered as exact rational division.  The `union_area == 0`
guard of the source is the `if` below. -/
def calculate_iou (bbox1 bbox2 : BBox) : ℚ :=
  let x1_min := bbox1.1
  let y1_min := bbox1.2.1
  let x1_max := bbox1.2.2.1
  let y1_max := bbox1.2.2.2
  let x2_min := bbox2.1
  let y2_min := bbox2.2.1
  let x2_max := bbox2.2.2.1
  let y2_max := bbox2.2.2.2
  let inter_x_min := max x1_min x2_min
  let inter_y_min := max y1_min y2_min
  let inter_x_max := min x1_max x2_max
  let inter_y_max := min y1_max y2_max
  let inter_width := max 0 (inter_x_max - inter_x_min)
  let inter_height := max 0 (inter_y_max - inter_y_min)
  let inter_area := inter_width * inter_height
  let bbox1_area := (x1_max - x1_min) * (y1_max - y1_min)
  let bbox2_area := (x2_max - x2_min) * (y2_max - y2_min)
  let union_area := bbox1_area + bbox2_area - inter_area
  if union_area = 0 then 0
  else (inter_area : ℚ) / (union_area : ℚ)

/-- Variant of `calculate_iou` with the single division embedded as fallible
Python division (`pydiv`), to state that the function never raises. -/
def calculate_iouE (bbox1 bbox2 : BBox) : Except String ℚ :=
  let inter_x_min := max bbox1.1 bbox2.1
  let inter_y_min := max bbox1.2.1 bbox2.2.1
  let inter_x_max := min bbox1.2.2.1 bbox2.2.2.1
  let inter_y_max := min bbox1.2.2.2 bbox2.2.2.2
  let inter_width := max 0 (inter_x_max - inter_x_min)
  let inter_height := max 0 (inter_y_max - inter_y_min)
  let inter_area := inter_width * inter_height
  let bbox1_area := (bbox1.2.2.1 - bbox1.1) * (bbox1.2.2.2 - bbox1.2.1)
  let bbox2_area := (bbox2.2.2.1 - bbox2.1) * (bbox2.2.2.2 - bbox2.2.1)
  let union_area := bbox1_area + bbox2_area - inter_area
  if union_area = 0 then .ok 0
  else pydiv (inter_area : ℚ) (union_area : ℚ)

/-- One insertion step of the stable descending sort: a later-input
element `a` moves past exactly the already-sorted elements of strictly
greater confidence, so equal-confidence elements keep input order. -/
def insertDesc (a : Detection) : List Detection → List Detection
  | [] => [a]
  | b :: l => if a.conf < b.conf then b :: insertDesc a l else a :: b :: l

/-- Embedding of `sorted(detections, key=lambda x: x[4], reverse=True)` from
`src/utils.py` line 193: stable sort by confidence descending
(CPython's sort is stable, and `reverse=True` preserves the relative
order of equal keys). -/
def sortDesc : List Detection → List Detection
  | [] => []
  | a :: l => insertDesc a (sortDesc l)

/-- The inner loop of `filter_detections_by_iou` (lines 198-214):
`should_keep` starts `True` and is cleared (with `break`) by the first
kept detection whose IoU with the candidate exceeds the threshold. -/
def shouldKeep (iou_threshold : ℚ) (d : Detection) : List Detection → Bool
  | [] => true
  | k :: rest =>
    if iou_threshold < calculate_iou (bboxOf d) (bboxOf k)
    then false
    else shouldKeep iou_threshold d rest

/-- The outer loop of `filter_detections_by_iou` (lines 195-218):
walk the sorted candidates, appending each to `filtered` when
`should_keep` survives. -/
def greedyPass (iou_threshold : ℚ) : List Detection → List Detection → List Detection
  | filtered, [] => filtered
  | filtered, d :: rest =>
    if shouldKeep iou_threshold d filtered
    then greedyPass iou_threshold (filtered ++ [d]) rest
    else greedyPass iou_threshold filtered rest

/-- Embedding of `filter_detections_by_iou` from `src/utils.py` (lines 173-220). -/
def filter_detections_by_iou (detections : List Detection) (iou_threshold : ℚ) :
    List Detection :=
  if detections = [] then []
  else greedyPass iou_threshold [] (sortDesc detections)

/-- The `self.stats` dict of `VideoProcessor` (`src/video_processor.py`
lines 31-36). -/
structure Stats where
  total_frames : ℕ
  total_detections : ℕ
  total_confidence : ℚ
  processing_time : ℚ
deriving DecidableEq, Repr

/-- Embedding of `VideoProcessor.__init__`: all statistics start at zero. -/
def initStats : Stats :=
  { total_frames := 0
    total_detections := 0
    total_confidence := 0
    processing_time := 0 }

/-- Sum of the detections' confidences, as accumulated by the loop in
`_update_stats` (lines 209-211). -/
def sumConf (detections : List Detection) : ℚ :=
  detections.foldl (fun acc d => acc + d.conf) 0

/-- Embedding of `VideoProcessor._update_stats` (lines 198-211): adds the number of
detections and their confidences; it does not touch `total_frames` or
`processing_time`. -/
def update_stats (s : Stats) (detections : List Detection) : Stats :=
  { s with
    total_detections := s.total_detections + detections.length
    total_confidence := s.total_confidence + sumConf detections }

/-- The end-of-run assignments of `process_video` (lines 122-124):
`stats['processing_time'] = processing_time;
stats['total_frames'] = frame_count`. -/
def finalizeStats (s : Stats) (frame_count : ℕ) (processing_time : ℚ) : Stats :=
  { s with
    total_frames := frame_count
    processing_time := processing_time }

/-- The dict returned by `get_statistics`, as an association list of
key/value pairs in Python insertion order. -/
abbrev StatsDict := List (String × ℚ)

/-- Embedding of `VideoProcessor.get_statistics` (lines 213-240).  When
`total_frames == 0` it returns `self.stats` itself (its four raw
keys); otherwise it builds the derived dict, whose `fps` entry divides
by `processing_time` with no guard — hence the `Except`. -/
def get_statistics (s : Stats) : Except String StatsDict :=
  if s.total_frames = 0 then
    .ok [("total_frames", (s.total_frames : ℚ)),
         ("total_detections", (s.total_detections : ℚ)),
         ("total_confidence", s.total_confidence),
         ("processing_time", s.processing_time)]
  else do
    let avg_detections ← pydiv (s.total_detections : ℚ) (s.total_frames : ℚ)
    let avg_confidence ←
      if 0 < s.total_detections
      then pydiv s.total_confidence (s.total_detections : ℚ)
      else pure 0
    let fps ← pydiv (s.total_frames : ℚ) s.processing_time
    pure [("total_frames", (s.total_frames : ℚ)),
          ("avg_detections", avg_detections),
          ("avg_confidence", avg_confidence),
          ("fps", fps)]

/-- A BGR color triple, e.g. `(0, 255, 0)`. -/
abbrev Color := ℤ × ℤ × ℤ

/-- The OpenCV drawing primitives used by `_draw_detections`, abstract
over the pixel representation `Frame`: `cv2.rectangle`,
`cv2.getTextSize`, `cv2.putText`, and the `f"{confidence:.2f}"` float
formatting.  Their pixel-level semantics are irrelevant to the claims;
only which buffer they are applied to matters. -/
structure DrawOps (Frame : Type) where
  rectangle : Frame → (ℤ × ℤ) → (ℤ × ℤ) → Color → ℤ → Frame
  getTextSize : String → ℚ → ℤ → (ℤ × ℤ)
  putText : Frame → String → (ℤ × ℤ) → ℚ → Color → ℤ → Frame
  fmtConf : ℚ → String

/-- The loop body of `_draw_detections` (`src/video_processor.py`
lines 153-194) applied to the current value of `annotated`: green box,
label size query, filled label background, black label text. -/
def drawOne {Frame : Type} (ops : DrawOps Frame) (d : Detection) (f : Frame) : Frame :=
  let f1 := ops.rectangle f (d.x1, d.y1) (d.x2, d.y2) (0, 255, 0) 2
  let label := d.cls ++ ": " ++ ops.fmtConf d.conf
  let wh := ops.getTextSize label (6 / 10) 2
  let label_w := wh.1
  let label_h := wh.2
  let f2 := ops.rectangle f1 (d.x1, d.y1 - label_h - 10) (d.x1 + label_w, d.y1)
      (0, 255, 0) (-1)
  ops.putText f2 label (d.x1, d.y1 - 5) (6 / 10) (0, 0, 0) 2

/-- The functional effect of `_draw_detections` on the copied frame
value: fold the per-detection drawing over the copy of `frame`. -/
def draw_detections_val {Frame : Type} (ops : DrawOps Frame) (frame : Frame)
    (detections : List Detection) : Frame :=
  detections.foldl (fun f d => drawOne ops d f) frame

/-- A heap of numpy arrays: Python references are indices into the
heap, and in-place mutation (what `cv2.rectangle`/`cv2.putText` do to
the array passed to them) is `List.set` at the reference. -/
abbrev Heap (Frame : Type) := List Frame

/-- The drawing loop of `_draw_detections` at the heap level: each
iteration mutates the array referenced by `annotatedRef` in place. -/
def draw_loop {Frame : Type} (ops : DrawOps Frame) (annotatedRef : ℕ) :
    Heap Frame → List Detection → Option (Heap Frame)
  | heap, [] => some heap
  | heap, d :: rest => do
    let f ← heap.get? annotatedRef
    draw_loop ops annotatedRef (heap.set annotatedRef (drawOne ops d f)) rest

/-- Embedding of `VideoProcessor._draw_detections` (lines 132-196) at the heap
level: `annotated = frame.copy()` allocates a fresh array holding the
same pixels (reference `heap.length`), the loop mutates only that
array, and the method returns the new reference. -/
def draw_detections_heap {Frame : Type} (ops : DrawOps Frame) (heap : Heap Frame)
    (frameRef : ℕ) (detections : List Detection) : Option (ℕ × Heap Frame) := do
  let frameVal ← heap.get? frameRef
  let annotatedRef := heap.length
  let heap1 := heap ++ [frameVal]
  let heap2 ← draw_loop ops annotatedRef heap1 detections
  pure (annotatedRef, heap2)

/-- The `while True` loop of `process_video` (lines 88-119), with the
frames that `cap.read()` will deliver given up front as a list (the
loop exits when they are exhausted), `display=False`, and the detector
abstracted as a function.  Per frame: detect, draw onto a copy, write
the annotated frame to the sink (collected in the returned list, in
order), update the statistics with the detector's result. -/
def process_video_loop {Frame : Type} (detect : Frame → List Detection)
    (ops : DrawOps Frame) : List Frame → Stats → List Frame × Stats
  | [], s => ([], s)
  | frame :: rest, s =>
    let detections := detect frame
    let annotated := draw_detections_val ops frame detections
    let out := process_video_loop detect ops rest (update_stats s detections)
    (annotated :: out.1, out.2)

/-- Embedding of `VideoProcessor.process_video` (lines 38-130) for a successfully
opened source delivering `frames`: run the loop from the constructor's
zero statistics, then perform the end-of-run assignments
(`processing_time`, `total_frames = frame_count`). Returns the frames
written to the sink and the final `self.stats`. -/
def process_video {Frame : Type} (detect : Frame → List Detection)
    (ops : DrawOps Frame) (frames : List Frame) (elapsed : ℚ) :
    List Frame × Stats :=
  let out := process_video_loop detect ops frames initStats
  (out.1, finalizeStats out.2 frames.length elapsed)

/-- Pointwise ordering on the three accumulator fields of `Stats`
(frames, detections, confidence sum). -/
def statsLE (s t : Stats) : Prop :=
  s.total_frames ≤ t.total_frames ∧
  s.total_detections ≤ t.total_detections ∧
  s.total_confidence ≤ t.total_confidence

instance (s t : Stats) : Decidable (statsLE s t) := by
  unfold statsLE; infer_instance

/-- The successive values of `self.stats` over one run: the state
before each frame, the state after the last frame, and finally the
state after the end-of-run assignments (`n` is the run's final
`frame_count`). -/
def traceFrom (n : ℕ) (elapsed : ℚ) (s : Stats) :
    List (List Detection) → List Stats
  | [] => [s, finalizeStats s n elapsed]
  | dets :: rest => s :: traceFrom n elapsed (update_stats s dets) rest

/-- Every value `self.stats` takes during a run of `process_video`
whose detector returns `detsPerFrame` frame by frame. -/
def pipelineTrace (detsPerFrame : List (List Detection)) (elapsed : ℚ) :
    List Stats :=
  traceFrom detsPerFrame.length elapsed initStats detsPerFrame

/-! ## Helper lemmas -/

theorem iou_comm (a b : BBox) : calculate_iou a b = calculate_iou b a := by
  obtain ⟨a1, a2, a3, a4⟩ := a
  obtain ⟨b1, b2, b3, b4⟩ := b
  simp only [calculate_iou]
  rw [max_comm a1 b1, max_comm a2 b2, min_comm a3 b3, min_comm a4 b4,
    add_comm ((a3 - a1) * (a4 - a2)) ((b3 - b1) * (b4 - b2))]

/-! ## Claim theorems -/

/-- C7: the IoU operation is symmetric: for all well-formed boxes `a`
and `b`, `calculate_iou a b = calculate_iou b a`. -/
theorem calculate_iou_symm (a b : BBox)
    (_ha : wellFormedBox a) (_hb : wellFormedBox b) :
    calculate_iou a b = calculate_iou b a :=
  iou_comm a b

theorem calculate_iou_symm_witness :
    wellFormedBox (0, 0, 10, 10) ∧ wellFormedBox (5, 5, 15, 15) ∧
    calculate_iou (0, 0, 10, 10) (5, 5, 15, 15)
      = calculate_iou (5, 5, 15, 15) (0, 0, 10, 10) :=
  ⟨by decide, by decide,
    calculate_iou_symm (0, 0, 10, 10) (5, 5, 15, 15) (by decide) (by decide)⟩

/-- C10: the IoU operation is total: on every pair of integer
4-tuples, including degenerate or inverted boxes, the fallible
embedding returns `.ok` (never a `ZeroDivisionError`), and its value
is the pure `calculate_iou`: the only division is guarded by the exact
`union_area == 0` check. -/
theorem calculate_iouE_total :
    ∀ a b : BBox, calculate_iouE a b = Except.ok (calculate_iou a b) := by
  intro ⟨a1, a2, a3, a4⟩ ⟨b1, b2, b3, b4⟩
  simp only [calculate_iouE, calculate_iou, pydiv]
  split
  · rfl
  · rename_i h
    rw [if_neg (by exact_mod_cast h)]

theorem foldl_update_stats_frames :
    ∀ (l : List (List Detection)) (s : Stats),
      (l.foldl update_stats s).total_frames = s.total_frames := by
  intro l
  induction l with
  | nil => intro s; rfl
  | cons a t ih => intro s; rw [List.foldl_cons, ih]; rfl

/-- C3: calling `get_statistics` with zero recorded frames does not
raise, but it returns the raw `self.stats` dict
(`total_frames`/`total_detections`/`total_confidence`/`processing_time`),
which contains no `avg_detections` or `avg_confidence` key — contrary
to the method's own documented return shape. -/
theorem get_statistics_zero_frames_raw_dict :
    get_statistics initStats =
      Except.ok [("total_frames", (0 : ℚ)), ("total_detections", 0),
        ("total_confidence", 0), ("processing_time", 0)] ∧
    List.lookup "avg_detections"
      [(("total_frames" : String), (0 : ℚ)), ("total_detections", 0),
        ("total_confidence", 0), ("processing_time", 0)] = none ∧
    List.lookup "avg_confidence"
      [(("total_frames" : String), (0 : ℚ)), ("total_detections", 0),
        ("total_confidence", 0), ("processing_time", 0)] = none := by
  exact ⟨rfl, rfl, rfl⟩

/-- C4 counterexample: with one processed frame and zero elapsed time,
`get_statistics` raises `ZeroDivisionError` at the `fps` division
instead of returning a defined sentinel. -/
theorem get_statistics_raises_on_zero_elapsed :
    get_statistics ⟨1, 0, 0, 0⟩ = Except.error "ZeroDivisionError" := by
  rfl

/-- C4 (amended): the `avg_detections` and `avg_confidence` divisions
of `get_statistics` are guarded, but the `fps` division is not:
the snapshot succeeds exactly when `total_frames = 0` (raw-dict early
return) or `processing_time ≠ 0`. -/
theorem get_statistics_guarded_except_fps :
    ∀ s : Stats, (get_statistics s).isOk = true ↔
      (s.total_frames = 0 ∨ s.processing_time ≠ 0) := by
  intro s
  by_cases h : s.total_frames = 0
  · simp [get_statistics, h, Except.isOk, Except.toBool]
  · have htf : ((s.total_frames : ℚ)) ≠ 0 := by exact_mod_cast h
    by_cases hd : 0 < s.total_detections
    · have htd : ((s.total_detections : ℚ)) ≠ 0 := by
        exact_mod_cast Nat.pos_iff_ne_zero.mp hd
      by_cases hp : s.processing_time = 0 <;>
        simp [get_statistics, h, hd, pydiv, htf, htd, hp, Except.isOk, Except.toBool,
          Except.bind, Bind.bind, pure, Except.pure]
    · by_cases hp : s.processing_time = 0 <;>
        simp [get_statistics, h, hd, pydiv, htf, hp, Except.isOk, Except.toBool,
          Except.bind, Bind.bind, pure, Except.pure]

/-- C2 counterexample: recording a frame (here with an empty detection
list) does not increment `total_frames`: `_update_stats` leaves the
frame counter untouched. -/
theorem update_stats_frames_cex :
    ¬ ((update_stats initStats []).total_frames
        = initStats.total_frames + 1) := by
  decide

/-- C2 (amended): `_update_stats` adds `len(detections)` to
`total_detections` and the detections' confidence sum to
`total_confidence` but leaves `total_frames` unchanged; after any
number of recorded frames the mid-run frame counter is still 0, and
`total_frames` becomes the frame count only through the end-of-run
assignment performed by `process_video`. -/
theorem update_stats_and_finalize_spec :
    (∀ (s : Stats) (dets : List Detection),
        (update_stats s dets).total_detections
            = s.total_detections + dets.length ∧
        (update_stats s dets).total_confidence
            = s.total_confidence + sumConf dets ∧
        (update_stats s dets).total_frames = s.total_frames) ∧
    (∀ dls : List (List Detection),
        (dls.foldl update_stats initStats).total_frames = 0) ∧
    (∀ (Frame : Type) (detect : Frame → List Detection)
        (ops : DrawOps Frame) (frames : List Frame) (elapsed : ℚ),
        ((process_video detect ops frames elapsed).2).total_frames
          = frames.length) := by
  refine ⟨fun s dets => ⟨rfl, rfl, rfl⟩, ?_, ?_⟩
  · intro dls
    exact foldl_update_stats_frames dls initStats
  · intro Frame detect ops frames elapsed
    rfl

theorem shouldKeep_true_iff (thr : ℚ) (d : Detection) :
    ∀ filtered : List Detection,
      shouldKeep thr d filtered = true ↔
        ∀ k ∈ filtered, calculate_iou (bboxOf d) (bboxOf k) ≤ thr := by
  intro filtered
  induction filtered with
  | nil => simp [shouldKeep]
  | cons k rest ih =>
    by_cases h : thr < calculate_iou (bboxOf d) (bboxOf k)
    · simp only [shouldKeep, if_pos h, List.mem_cons]
      constructor
      · intro hF; exact absurd hF (by decide)
      · intro hall
        exact absurd (hall k (Or.inl rfl)) (not_le.mpr h)
    · simp only [shouldKeep, if_neg h, List.mem_cons, ih]
      constructor
      · intro hall x hx
        rcases hx with rfl | hx
        · exact not_lt.mp h
        · exact hall x hx
      · intro hall x hx
        exact hall x (Or.inr hx)

/-- C5: in the greedy pass of `filter_detections_by_iou`, a candidate
`d` (taken in sorted order) is appended to the output iff its IoU
against every already-accepted detection is ≤ the threshold: a strict
`>` triggers rejection, so an IoU exactly equal to the threshold keeps
the candidate. -/
theorem greedyPass_accept_iff :
    ∀ (thr : ℚ) (filtered : List Detection) (d : Detection)
      (rest : List Detection),
      (shouldKeep thr d filtered = true ↔
        ∀ k ∈ filtered, calculate_iou (bboxOf d) (bboxOf k) ≤ thr) ∧
      greedyPass thr filtered (d :: rest) =
        (if shouldKeep thr d filtered
         then greedyPass thr (filtered ++ [d]) rest
         else greedyPass thr filtered rest) := by
  intro thr filtered d rest
  exact ⟨shouldKeep_true_iff thr d filtered, rfl⟩

theorem insertDesc_headq (a : Detection) :
    ∀ l : List Detection,
      (insertDesc a l).head? = some a ∨ (insertDesc a l).head? = l.head?
  | [] => Or.inl rfl
  | b :: t => by
    by_cases h : a.conf < b.conf
    · right; simp [insertDesc, h]
    · left; simp [insertDesc, h]

theorem insertDesc_chain (a : Detection) :
    ∀ l : List Detection,
      l.Chain' (fun p q => q.conf ≤ p.conf) →
      (insertDesc a l).Chain' (fun p q => q.conf ≤ p.conf) := by
  intro l
  induction l with
  | nil => intro _; simp [insertDesc]
  | cons b t ih =>
    intro h
    rw [List.chain'_cons'] at h
    by_cases hc : a.conf < b.conf
    · simp only [insertDesc, if_pos hc]
      rw [List.chain'_cons']
      refine ⟨?_, ih h.2⟩
      intro x hx
      rcases insertDesc_headq a t with hh | hh
      · rw [hh, Option.mem_some_iff] at hx
        subst hx
        exact le_of_lt hc
      · rw [hh] at hx
        exact h.1 x hx
    · simp only [insertDesc, if_neg hc]
      rw [List.chain'_cons']
      refine ⟨?_, List.chain'_cons'.mpr h⟩
      intro x hx
      simp only [List.head?_cons, Option.mem_some_iff] at hx
      subst hx
      exact not_lt.mp hc

theorem sortDesc_chain :
    ∀ l : List Detection, (sortDesc l).Chain' (fun p q => q.conf ≤ p.conf)
  | [] => List.chain'_nil
  | a :: l => insertDesc_chain a (sortDesc l) (sortDesc_chain l)

theorem insertDesc_filter_eq (c : ℚ) (a : Detection) (ha : a.conf = c) :
    ∀ l, (insertDesc a l).filter (fun d => decide (d.conf = c))
      = a :: l.filter (fun d => decide (d.conf = c)) := by
  intro l
  induction l with
  | nil => simp [insertDesc, List.filter, ha]
  | cons b t ih =>
    by_cases hc : a.conf < b.conf
    · have hb : ¬ (b.conf = c) := by
        intro hbc
        rw [ha, hbc] at hc
        exact lt_irrefl c hc
      simp only [insertDesc, if_pos hc, List.filter_cons]
      simp [hb, ih]
    · simp only [insertDesc, if_neg hc, List.filter_cons]
      simp [ha]

theorem insertDesc_filter_ne (c : ℚ) (a : Detection) (ha : ¬ a.conf = c) :
    ∀ l, (insertDesc a l).filter (fun d => decide (d.conf = c))
      = l.filter (fun d => decide (d.conf = c)) := by
  intro l
  induction l with
  | nil => simp [insertDesc, List.filter, ha]
  | cons b t ih =>
    by_cases hc : a.conf < b.conf
    · simp only [insertDesc, if_pos hc, List.filter_cons]
      by_cases hb : b.conf = c <;> simp [hb, ih]
    · simp only [insertDesc, if_neg hc, List.filter_cons]
      simp [ha]

theorem sortDesc_filter (c : ℚ) :
    ∀ l : List Detection,
      (sortDesc l).filter (fun d => decide (d.conf = c))
        = l.filter (fun d => decide (d.conf = c)) := by
  intro l
  induction l with
  | nil => rfl
  | cons a t ih =>
    by_cases ha : a.conf = c
    · rw [sortDesc, insertDesc_filter_eq c a ha, ih]
      simp [List.filter_cons, ha]
    · rw [sortDesc, insertDesc_filter_ne c a ha, ih]
      simp [List.filter_cons, ha]

theorem greedyPass_append_sublist (thr : ℚ) :
    ∀ rest filtered : List Detection,
      ∃ s, greedyPass thr filtered rest = filtered ++ s ∧ s.Sublist rest := by
  intro rest
  induction rest with
  | nil =>
    intro filtered
    exact ⟨[], by simp [greedyPass], List.Sublist.refl []⟩
  | cons d rest ih =>
    intro filtered
    by_cases h : shouldKeep thr d filtered
    · obtain ⟨s, hs, hsub⟩ := ih (filtered ++ [d])
      refine ⟨d :: s, ?_, List.Sublist.cons₂ d hsub⟩
      simp only [greedyPass, if_pos h, hs, List.append_assoc,
        List.singleton_append]
    · obtain ⟨s, hs, hsub⟩ := ih filtered
      exact ⟨s, by simp only [greedyPass, if_neg h, hs], hsub.cons d⟩

/-- C6: the deduplication sort is confidence-descending and stable:
the sorted candidate order is descending in confidence, the
equal-confidence detections appear in it exactly in input order, and
the surviving output's equal-confidence detections form a subsequence
of the input's — so the algorithm is deterministic. -/
theorem sortDesc_stable_and_deterministic :
    (∀ l : List Detection,
        (sortDesc l).Chain' (fun p q => q.conf ≤ p.conf)) ∧
    (∀ (l : List Detection) (c : ℚ),
        (sortDesc l).filter (fun d => decide (d.conf = c))
          = l.filter (fun d => decide (d.conf = c))) ∧
    (∀ (l : List Detection) (thr c : ℚ),
        ((filter_detections_by_iou l thr).filter
            (fun d => decide (d.conf = c))).Sublist
          (l.filter (fun d => decide (d.conf = c)))) := by
  refine ⟨sortDesc_chain, fun l c => sortDesc_filter c l, ?_⟩
  intro l thr c
  by_cases hl : l = []
  · subst hl
    simp [filter_detections_by_iou]
  · rw [filter_detections_by_iou, if_neg hl]
    obtain ⟨s, hs, hsub⟩ := greedyPass_append_sublist thr (sortDesc l) []
    rw [hs, List.nil_append]
    exact (sortDesc_filter c l) ▸ (hsub.filter _)

theorem process_video_loop_spec (Frame : Type)
    (detect : Frame → List Detection) (ops : DrawOps Frame) :
    ∀ (frames : List Frame) (s : Stats),
      process_video_loop detect ops frames s =
        (frames.map (fun fr => draw_detections_val ops fr (detect fr)),
         (frames.map detect).foldl update_stats s) := by
  intro frames
  induction frames with
  | nil => intro s; rfl
  | cons fr rest ih =>
    intro s
    simp [process_video_loop, ih, List.map_cons, List.foldl_cons]

/-- C1 (amended): for every frame read successfully, `process_video`
renders, writes and records the detector's raw result directly: the
Deduplication Engine (`filter_detections_by_iou`) is never invoked by
the loop, and no IoU threshold is configured on the controller. -/
theorem process_video_renders_and_records_raw (Frame : Type)
    (detect : Frame → List Detection) (ops : DrawOps Frame)
    (frames : List Frame) (elapsed : ℚ) :
    process_video detect ops frames elapsed =
      (frames.map (fun fr => draw_detections_val ops fr (detect fr)),
       finalizeStats ((frames.map detect).foldl update_stats initStats)
         frames.length elapsed) := by
  simp [process_video, process_video_loop_spec]

/-- A drawing-primitive instantiation on unit frames, for concrete
runs of the pipeline. -/
def trivialOps : DrawOps Unit :=
  { rectangle := fun f _ _ _ _ => f
    getTextSize := fun _ _ _ => (0, 0)
    putText := fun f _ _ _ _ _ => f
    fmtConf := fun _ => "" }

/-- Two detections on the same box (IoU 1) with confidences 0.9 and
0.7: deduplication at threshold 0.5 keeps only the first. -/
def rawPair : List Detection :=
  [⟨0, 0, 10, 10, 9/10, "person"⟩, ⟨0, 0, 10, 10, 7/10, "person"⟩]

/-- C1 counterexample: on a one-frame video whose detector returns
`rawPair`, the statistics record 2 detections, while
`filter_detections_by_iou rawPair 0.5` has 1 element — the recorded
detections are not the deduplicated ones. -/
theorem process_video_skips_dedup_cex :
    ¬ (((process_video (fun _ : Unit => rawPair) trivialOps
          [()] 1).2).total_detections
        = (filter_detections_by_iou rawPair (1/2)).length) := by
  have h1 : ((process_video (fun _ : Unit => rawPair) trivialOps
      [()] 1).2).total_detections = 2 := by
    simp [process_video, process_video_loop, update_stats, initStats,
      finalizeStats, rawPair]
  have h2 : (filter_detections_by_iou rawPair (1/2)).length = 1 := by
    norm_num [filter_detections_by_iou, rawPair, sortDesc, insertDesc,
      greedyPass, shouldKeep, calculate_iou, bboxOf]
    simp
  rw [h1, h2]
  decide

theorem sumConf_foldl_nonneg :
    ∀ (l : List Detection) (acc : ℚ), 0 ≤ acc →
      (∀ d ∈ l, 0 ≤ d.conf) →
      0 ≤ l.foldl (fun a d => a + d.conf) acc := by
  intro l
  induction l with
  | nil => intro acc ha _; exact ha
  | cons d t ih =>
    intro acc ha hl
    rw [List.foldl_cons]
    exact ih _ (add_nonneg ha (hl d (List.mem_cons_self d t)))
      (fun x hx => hl x (List.mem_cons_of_mem d hx))

theorem sumConf_nonneg (l : List Detection) (h : ∀ d ∈ l, 0 ≤ d.conf) :
    0 ≤ sumConf l :=
  sumConf_foldl_nonneg l 0 le_rfl h

theorem traceFrom_headq (n : ℕ) (e : ℚ) (s : Stats) :
    ∀ frames : List (List Detection),
      (traceFrom n e s frames).head? = some s := by
  intro frames
  cases frames <;> rfl

theorem traceFrom_chain (n : ℕ) (e : ℚ) :
    ∀ (frames : List (List Detection)) (s : Stats),
      s.total_frames = 0 →
      (∀ f ∈ frames, ∀ d ∈ f, 0 ≤ d.conf) →
      (traceFrom n e s frames).Chain' statsLE := by
  intro frames
  induction frames with
  | nil =>
    intro s hs _
    refine List.chain'_cons.mpr ⟨⟨?_, le_refl _, le_refl _⟩,
      List.chain'_singleton _⟩
    rw [hs]
    exact Nat.zero_le n
  | cons f rest ih =>
    intro s hs hconf
    simp only [traceFrom]
    refine List.chain'_cons'.mpr ⟨?_, ?_⟩
    · intro t ht
      rw [traceFrom_headq, Option.mem_some_iff] at ht
      subst ht
      refine ⟨le_refl _, Nat.le_add_right _ _, ?_⟩
      have h0 : 0 ≤ sumConf f :=
        sumConf_nonneg f (hconf f (List.mem_cons_self f rest))
      simp only [update_stats]
      linarith
    · exact ih (update_stats s f) hs
        (fun g hg => hconf g (List.mem_cons_of_mem f hg))

/-- C8: the running statistics start all-zero at construction and,
along every value `self.stats` takes during a run (per-frame updates
followed by the end-of-run assignment), the frame counter, detection
counter and confidence sum never decrease, provided every confidence
lies in `[0, 1]`. -/
theorem stats_lifecycle_monotone (detsPerFrame : List (List Detection))
    (elapsed : ℚ)
    (h : ∀ f ∈ detsPerFrame, ∀ d ∈ f, 0 ≤ d.conf ∧ d.conf ≤ 1) :
    initStats = ⟨0, 0, 0, 0⟩ ∧
    (pipelineTrace detsPerFrame elapsed).Chain' statsLE :=
  ⟨rfl, traceFrom_chain detsPerFrame.length elapsed detsPerFrame initStats
    rfl (fun f hf d hd => (h f hf d hd).1)⟩

theorem stats_lifecycle_monotone_witness :
    (∀ f ∈ [[(⟨0, 0, 4, 4, 1, "person"⟩ : Detection)]],
      ∀ d ∈ f, 0 ≤ d.conf ∧ d.conf ≤ 1) ∧
    (initStats = ⟨0, 0, 0, 0⟩ ∧
      (pipelineTrace [[(⟨0, 0, 4, 4, 1, "person"⟩ : Detection)]] 7).Chain'
        statsLE) :=
  ⟨by decide, stats_lifecycle_monotone [[⟨0, 0, 4, 4, 1, "person"⟩]] 7
    (by decide)⟩

theorem draw_loop_preserves_other (Frame : Type) (ops : DrawOps Frame)
    (rr : ℕ) :
    ∀ (ds : List Detection) (h h' : Heap Frame),
      draw_loop ops rr h ds = some h' →
      ∀ i, i ≠ rr → h'.get? i = h.get? i := by
  intro ds
  induction ds with
  | nil =>
    intro h h' he i _
    simp only [draw_loop, Option.some.injEq] at he
    rw [he]
  | cons d rest ih =>
    intro h h' he i hi
    cases hg : h.get? rr with
    | none =>
      rw [draw_loop, hg] at he
      cases he
    | some f =>
      rw [draw_loop, hg] at he
      have hrec := ih (h.set rr (drawOne ops d f)) h' he i hi
      rw [hrec, List.get?_set_ne _ _ (fun hrr => hi hrr.symm)]

/-- C9: `_draw_detections` draws on a fresh copy: whenever it
succeeds, the returned reference is a newly allocated frame (not an
alias of the input) and the input frame's pixels in the heap are
unchanged. -/
theorem draw_detections_heap_preserves_input (Frame : Type)
    (ops : DrawOps Frame) (heap : Heap Frame) (frameRef : ℕ)
    (dets : List Detection) (r : ℕ) (heap' : Heap Frame)
    (h : draw_detections_heap ops heap frameRef dets = some (r, heap')) :
    heap'.get? frameRef = heap.get? frameRef ∧ r = heap.length := by
  cases hg : heap.get? frameRef with
  | none =>
    rw [draw_detections_heap, hg] at h
    cases h
  | some v =>
    have hlt : frameRef < heap.length := by
      rcases List.get?_eq_some.mp hg with ⟨hl, _⟩
      exact hl
    rw [draw_detections_heap, hg] at h
    simp only [Option.bind_eq_bind, Option.some_bind] at h
    cases hd : draw_loop ops heap.length (heap ++ [v]) dets with
    | none =>
      rw [hd] at h
      cases h
    | some h2 =>
      rw [hd] at h
      simp only [Option.some_bind, Option.pure_def, Option.some.injEq,
        Prod.mk.injEq] at h
      obtain ⟨hr, hh⟩ := h
      subst hr
      subst hh
      constructor
      · rw [draw_loop_preserves_other Frame ops heap.length dets
          (heap ++ [v]) h2 hd frameRef (Nat.ne_of_lt hlt)]
        exact (List.get?_append hlt).trans hg
      · rfl

/-- Concrete drawing primitives on natural-number frames, for witness
runs. -/
def natOps : DrawOps ℕ :=
  { rectangle := fun f _ _ _ _ => f + 1
    getTextSize := fun _ _ _ => (3, 4)
    putText := fun f _ _ _ _ _ => f + 1
    fmtConf := fun _ => "c" }

theorem draw_detections_heap_preserves_input_witness :
    List.get? [(5 : ℕ), 8] 0 = List.get? [(5 : ℕ)] 0 ∧
    1 = List.length [(5 : ℕ)] :=
  draw_detections_heap_preserves_input ℕ natOps [5] 0
    [⟨0, 0, 10, 10, 1, "person"⟩] 1 [5, 8] (by rfl)
